import Mathlib

/-!
Verification of the kaleidoscope front end (lexer + recursive-descent /
precedence-climbing parser + AST model), shallowly embedded from
`src/lexer.rs`, `src/parser.rs` and `src/ast.rs`.

Modelling conventions:
* The Rust lexer indexes the raw bytes of the source `&str`
  (`buf.as_bytes()[pos] as char`).  A buffer is therefore modelled as a
  `List Char` in which every element stands for one byte of the buffer
  (so every element has code point < 256 whenever it models a real
  buffer).  All byte classification predicates below are the Rust ones,
  applied to a byte cast to `char`.
* The f64 value of a numeric literal is modelled by the literal's text
  (the maximal run of digits and dots).  Floating point itself is not
  embedded; `validF64` captures exactly when Rust's `str::parse::<f64>`
  succeeds on such a run (at most one dot and at least one digit).
* Every `panic!`/`assert!`/`unwrap` failure of the Rust code is
  modelled as an `Except.error` value; the LLVM code-generation calls
  interleaved in `Parser::parse` are the excluded external backend
  (spec §1) and are dropped.
* The parser's mutually recursive functions need not terminate on
  arbitrary buffers, so each one takes an explicit fuel argument that
  decreases at every (mutual) recursion step; running out of fuel
  yields the distinguished error `PError.outOfFuel`, which is never
  confused with a genuine lexer or parser failure.
-/

namespace Kaleidoscope

/-! ### Byte classification (Rust `u8` / `char` predicates) -/

/-- Rust `u8::is_ascii_whitespace`: space, tab, newline, form feed, carriage return. -/
def isAsciiWhitespace (c : Char) : Bool :=
  c.toNat = 32 || c.toNat = 9 || c.toNat = 10 || c.toNat = 12 || c.toNat = 13

/-- Rust `u8::is_ascii_digit` / `char::is_ascii_digit`. -/
def isAsciiDigit (c : Char) : Bool :=
  48 ≤ c.toNat && c.toNat ≤ 57

/-- ASCII letters. -/
def isAsciiAlpha (c : Char) : Bool :=
  (65 ≤ c.toNat && c.toNat ≤ 90) || (97 ≤ c.toNat && c.toNat ≤ 122)

/-- Rust `u8::is_ascii_alphanumeric`. -/
def isAsciiAlphanumeric (c : Char) : Bool :=
  isAsciiAlpha c || isAsciiDigit c

/-- Rust `char::is_alphabetic` (Unicode `Alphabetic`), restricted to the
code points a single byte can denote (U+0000..U+00FF): the ASCII letters
plus the Latin-1 letters U+00AA, U+00B5, U+00BA, U+00C0–U+00D6,
U+00D8–U+00F6, U+00F8–U+00FF. -/
def isAlphabetic (c : Char) : Bool :=
  isAsciiAlpha c || c.toNat = 0xAA || c.toNat = 0xB5 || c.toNat = 0xBA ||
  (0xC0 ≤ c.toNat && c.toNat ≤ 0xD6) || (0xD8 ≤ c.toNat && c.toNat ≤ 0xF6) ||
  (0xF8 ≤ c.toNat && c.toNat ≤ 0xFF)

/-- Characters accepted by the numeric-literal scanner `Lexer::number`:
ASCII digits and `'.'`. -/
def isNumChar (c : Char) : Bool :=
  isAsciiDigit c || c = '.'

/-- An ASCII byte. -/
def isAsciiChar (c : Char) : Bool :=
  c.toNat < 128

/-! ### Tokens (`lexer.rs`, `enum Token`) -/

/-- `Token` from `lexer.rs`.  `Ext` models `Token::Extern`; `Number`
carries the literal's text (see the header comment). -/
inductive Token where
  | Def
  | Ext
  | Identifier (name : List Char)
  | Number (raw : List Char)
  | Symbol (c : Char)
deriving DecidableEq

/-- The text of the keyword `def` (`KEYWORDS` table in `lexer.rs`). -/
def kwDef : List Char := ['d', 'e', 'f']

/-- The text of the keyword `extern` (`KEYWORDS` table in `lexer.rs`). -/
def kwExt : List Char := ['e', 'x', 't', 'e', 'r', 'n']

/-! ### The lexer (`lexer.rs`, `impl Iterator for Lexer`) -/

/-- `Lexer::skip_line`: consume bytes up to and including the first
newline. -/
def skipLine : List Char → List Char
  | [] => []
  | c :: rest => if c = '\n' then rest else skipLine rest

/-- The whitespace/comment skipping performed by `Lexer::next`:
`skip_whitespace` followed by the `'#' => { skip_line; next() }`
self-recursion, fused into a single structural traversal.  The flag is
`true` while inside a `#`-comment (i.e. inside `skip_line`). -/
def skipTrivia : Bool → List Char → List Char
  | _, [] => []
  | true, c :: rest => if c = '\n' then skipTrivia false rest else skipTrivia true rest
  | false, c :: rest =>
    if isAsciiWhitespace c then skipTrivia false rest
    else if c = '#' then skipTrivia true rest
    else c :: rest

/-- Success condition of Rust's `str::parse::<f64>` on a nonempty run of
digits and dots: at most one dot and at least one digit. -/
def validF64 (run : List Char) : Bool :=
  run.count '.' ≤ 1 && run.any isAsciiDigit

/-- Lexer and parser failures.  `lexFailure` models the
`parse::<f64>().unwrap()` panic on a malformed numeric run;
`unexpected` models the parser's `panic!("unexpected token: ...")` and
`assert_eq!` failures; `outOfFuel` is the model artifact for
non-termination (see header). -/
inductive PError where
  | lexFailure
  | unexpected (found : Option Token)
  | outOfFuel
deriving DecidableEq

/-- The token-emitting tail of `Lexer::next`, applied to the buffer
suffix that remains after whitespace/comment skipping: `none` at end of
buffer, a keyword/identifier token after an alphabetic byte, a number
token (or the unrecoverable `lexFailure`) after a digit or dot, and
otherwise a `Symbol` carrying the byte itself.  Returns the token
together with the remaining buffer suffix. -/
def lexNextCore : List Char → Except PError (Option (Token × List Char))
  | [] => .ok none
  | c :: rest =>
    if isAlphabetic c then
      let i := (c :: rest).takeWhile isAsciiAlphanumeric
      let r := (c :: rest).dropWhile isAsciiAlphanumeric
      if i = kwDef then .ok (some (.Def, r))
      else if i = kwExt then .ok (some (.Ext, r))
      else .ok (some (.Identifier i, r))
    else if isNumChar c then
      let nrun := (c :: rest).takeWhile isNumChar
      let r := (c :: rest).dropWhile isNumChar
      if validF64 nrun then .ok (some (.Number nrun, r)) else .error .lexFailure
    else .ok (some (.Symbol c, rest))

/-- `Lexer::next` (one step): skip whitespace and comments, then emit
the next token. -/
def lexNext (l : List Char) : Except PError (Option (Token × List Char)) :=
  lexNextCore (skipTrivia false l)

/-- Result of draining the lexer: the full token sequence, or the point
of unrecoverable lexing failure. -/
inductive LexOut where
  | tokens (ts : List Token)
  | failed
deriving DecidableEq

/-- Drain the lexer by repeatedly calling `lexNext`, with fuel; `none`
means the fuel ran out before the stream ended. -/
def lexRun : Nat → List Char → Option LexOut
  | 0, _ => none
  | fuel + 1, l =>
    match lexNext l with
    | .error _ => some .failed
    | .ok none => some (.tokens [])
    | .ok (some (t, r)) =>
      match lexRun fuel r with
      | none => none
      | some .failed => some .failed
      | some (.tokens ts) => some (.tokens (t :: ts))

/-! ### The AST (`ast.rs`) -/

/-- `Expr` from `ast.rs` with the payload structs
(`NumberExpr`, `VariableExpr`, `BinaryExpr`, `CallExpr`) inlined. -/
inductive Expr where
  | NumberExpr (raw : List Char)
  | VariableExpr (name : List Char)
  | BinaryExpr (op : Char) (lhs rhs : Expr)
  | CallExpr (callee : List Char) (args : List Expr)

/-- `Prototype` from `ast.rs`. -/
structure Prototype where
  name : List Char
  args : List (List Char)
deriving DecidableEq

/-- `Function` from `ast.rs`. -/
structure Function where
  proto : Prototype
  body : Expr

/-- One element of `Parser::ast` (`Vec<Box<AST>>`): the three kinds of
top-level unit pushed by `Parser::parse`. -/
inductive TopUnit where
  | funcU (f : Function)
  | protoU (p : Prototype)
  | exprU (e : Expr)

/-! ### The parser (`parser.rs`) -/

/-- The parser's mutable state: the one-token lookahead buffer
`Parser::token` and the unread suffix of the buffer (the Lexer's
cursor). -/
structure PState where
  tok : Option Token
  rest : List Char
deriving DecidableEq

/-- `Parser::get_next_token`: `self.token = self.lexer.next()`. -/
def getNextToken (s : PState) : Except PError PState :=
  match lexNext s.rest with
  | .error e => .error e
  | .ok none => .ok ⟨none, s.rest⟩
  | .ok (some (t, r)) => .ok ⟨some t, r⟩

/-- `BINOP_PRECEDENCE` from `parser.rs`: `<`→10, `+`→20, `-`→20, `*`→40. -/
def BINOP_PRECEDENCE : List (Char × Int) :=
  [('<', 10), ('+', 20), ('-', 20), ('*', 40)]

/-- `Parser::get_token_precedence`: the operator and its table entry for
a `Symbol` in the table, `(' ', -1)` otherwise. -/
def getTokenPrecedence (tok : Option Token) : Char × Int :=
  match tok with
  | some (.Symbol op) =>
    match List.lookup op BINOP_PRECEDENCE with
    | some p => (op, p)
    | none => (' ', -1)
  | _ => (' ', -1)

mutual

/-- `Parser::parse_expression`: `primary binoprhs`. -/
def parseExpression : Nat → PState → Except PError (Expr × PState)
  | 0, _ => .error .outOfFuel
  | fuel + 1, s => do
    let (lhs, s) ← parsePrimary fuel s
    parseBinoprhs fuel lhs 0 s

/-- `Parser::parse_primary`: identifier (variable or call), number, or
parenthesized expression. -/
def parsePrimary : Nat → PState → Except PError (Expr × PState)
  | 0, _ => .error .outOfFuel
  | fuel + 1, s =>
    match s.tok with
    | some (.Identifier name) => do
      let s ← getNextToken s
      if s.tok = some (.Symbol '(') then do
        let s ← getNextToken s
        let (args, s) ← parseCallArgs fuel s []
        pure (.CallExpr name args, s)
      else
        pure (.VariableExpr name, s)
    | some (.Number n) => do
      let s ← getNextToken s
      pure (.NumberExpr n, s)
    | some (.Symbol c) =>
      if c = '(' then do
        let s ← getNextToken s
        let (e, s) ← parseExpression fuel s
        if s.tok = some (.Symbol ')') then do
          let s ← getNextToken s
          pure (e, s)
        else .error (.unexpected s.tok)
      else .error (.unexpected (some (.Symbol c)))
    | t => .error (.unexpected t)

/-- The call-argument loop inside `Parser::parse_primary`: `)` ends the
list, `,` is skipped, anything else (the match's `_` arm) is parsed as
an argument expression.  The source's `Some(Token::Symbol(')'))` /
`Some(Token::Symbol(','))` match arms are rendered as equality tests. -/
def parseCallArgs : Nat → PState → List Expr → Except PError (List Expr × PState)
  | 0, _, _ => .error .outOfFuel
  | fuel + 1, s, args =>
    if s.tok = some (.Symbol ')') then do
      let s ← getNextToken s
      pure (args, s)
    else if s.tok = some (.Symbol ',') then do
      let s ← getNextToken s
      parseCallArgs fuel s args
    else do
      let (e, s) ← parseExpression fuel s
      parseCallArgs fuel s (args ++ [e])

/-- `Parser::parse_binoprhs` (precedence climbing): the source's loop is
rendered as tail recursion on the rebuilt `lhs`. -/
def parseBinoprhs : Nat → Expr → Int → PState → Except PError (Expr × PState)
  | 0, _, _, _ => .error .outOfFuel
  | fuel + 1, lhs, lhsPrec, s =>
    let pr := getTokenPrecedence s.tok
    if pr.2 < lhsPrec then pure (lhs, s)
    else do
      let s ← getNextToken s
      let (rhs, s) ← parsePrimary fuel s
      let npr := getTokenPrecedence s.tok
      let (rhs, s) ←
        if pr.2 < npr.2 then parseBinoprhs fuel rhs (pr.2 + 1) s
        else pure (rhs, s)
      parseBinoprhs fuel (.BinaryExpr pr.1 lhs rhs) lhsPrec s

end

/-- The argument loop inside `Parser::parse_prototype`: identifiers are
accumulated, `)` ends the list, anything else is an `unexpected token`
panic. -/
def parsePrototypeArgs : Nat → PState → List (List Char) → Except PError (List (List Char) × PState)
  | 0, _, _ => .error .outOfFuel
  | fuel + 1, s, args =>
    match s.tok with
    | some (.Identifier id) => do
      let s ← getNextToken s
      parsePrototypeArgs fuel s (args ++ [id])
    | some (.Symbol c) =>
      if c = ')' then do
        let s ← getNextToken s
        pure (args, s)
      else .error (.unexpected (some (.Symbol c)))
    | t => .error (.unexpected t)

/-- `Parser::parse_prototype`: `Identifier '(' Identifier* ')'`. -/
def parsePrototype (fuel : Nat) (s : PState) : Except PError (Prototype × PState) :=
  match s.tok with
  | some (.Identifier name) => do
    let s ← getNextToken s
    if s.tok = some (.Symbol '(') then do
      let s ← getNextToken s
      let (args, s) ← parsePrototypeArgs fuel s []
      pure (⟨name, args⟩, s)
    else .error (.unexpected s.tok)
  | t => .error (.unexpected t)

/-- `Parser::parse_definition`: `'def' prototype expression` (the
`assert_eq!(self.token, Some(Token::Def))` is the guard). -/
def parseDefinition (fuel : Nat) (s : PState) : Except PError (Function × PState) :=
  if s.tok = some .Def then do
    let s ← getNextToken s
    let (proto, s) ← parsePrototype fuel s
    let (body, s) ← parseExpression fuel s
    pure (⟨proto, body⟩, s)
  else .error (.unexpected s.tok)

/-- `Parser::parse_extern`: `'extern' prototype`. -/
def parseExt (fuel : Nat) (s : PState) : Except PError (Prototype × PState) :=
  if s.tok = some .Ext then do
    let s ← getNextToken s
    parsePrototype fuel s
  else .error (.unexpected s.tok)

/-- `Parser::parse`, the top-level loop: every iteration first calls
`get_next_token` (overwriting the lookahead), then dispatches on the
token; the accumulated `Parser::ast` vector is returned as the result
list (the interleaved LLVM code-generation calls are the excluded
backend).  The source's `Some(Token::Def)` / `Some(Token::Extern)` /
`Some(Token::Symbol(';'))` match arms are rendered as equality tests
under a single `some t` pattern. -/
def parseTop : Nat → PState → Except PError (List TopUnit)
  | 0, _ => .error .outOfFuel
  | fuel + 1, s => do
    let s ← getNextToken s
    match s.tok with
    | none => pure []
    | some t =>
      if t = .Def then do
        let (f, s) ← parseDefinition fuel s
        let us ← parseTop fuel s
        pure (.funcU f :: us)
      else if t = .Ext then do
        let (p, s) ← parseExt fuel s
        let us ← parseTop fuel s
        pure (.protoU p :: us)
      else if t = .Symbol ';' then parseTop fuel s
      else do
        let (e, s) ← parseExpression fuel s
        let us ← parseTop fuel s
        pure (.exprU e :: us)

/-- Parse a whole buffer: `Parser::new(buf)` (lookahead empty, lexer at
the start) followed by `Parser::parse`. -/
def parse (fuel : Nat) (buf : List Char) : Except PError (List TopUnit) :=
  parseTop fuel ⟨none, buf⟩

end Kaleidoscope


namespace Kaleidoscope

/-! ### Helper notions and lemmas about the lexer -/

/-- Reduction of `Except` do-notation on a success value. -/
@[simp]
theorem ok_bind {ε α β : Type} (a : α) (f : α → Except ε β) :
    (Except.ok a >>= f) = f a := rfl

/-- Reduction of `Except` do-notation on an error value. -/
@[simp]
theorem error_bind {ε α β : Type} (e : ε) (f : α → Except ε β) :
    ((Except.error e : Except ε α) >>= f) = Except.error e := rfl

@[simp]
theorem map_ok {ε α β : Type} (f : α → β) (a : α) :
    (f <$> (Except.ok a : Except ε α)) = Except.ok (f a) := rfl

@[simp]
theorem map_error {ε α β : Type} (f : α → β) (e : ε) :
    (f <$> (Except.error e : Except ε α)) = Except.error e := rfl

@[simp]
theorem pure_eq_ok {ε α : Type} (a : α) : (pure a : Except ε α) = Except.ok a := rfl

/-- `headNot p l` holds when `l` does not start with a character
satisfying `p` (in particular when `l` is empty). -/
def headNot (p : Char → Bool) : List Char → Bool
  | [] => true
  | c :: _ => !p c

/-- The buffer text of a well-formed identifier: nonempty, ASCII-alpha
first character, ASCII-alphanumeric throughout, and not a keyword. -/
def isIdentName : List Char → Bool
  | [] => false
  | c :: t =>
    isAsciiAlpha c && (c :: t).all isAsciiAlphanumeric &&
      decide (c :: t ≠ kwDef) && decide (c :: t ≠ kwExt)

theorem alpha_not_ws {c : Char} (h : isAsciiAlpha c = true) :
    isAsciiWhitespace c = false := by
  simp [isAsciiAlpha, isAsciiWhitespace] at *
  omega

theorem alpha_ne_hash {c : Char} (h : isAsciiAlpha c = true) : c ≠ '#' := by
  intro hc
  subst hc
  exact absurd h (by decide)

theorem alpha_isAlphabetic {c : Char} (h : isAsciiAlpha c = true) :
    isAlphabetic c = true := by
  simp [isAlphabetic, h]

theorem skipTrivia_nontrivial {c : Char} {rest : List Char}
    (h1 : isAsciiWhitespace c = false) (h2 : c ≠ '#') :
    skipTrivia false (c :: rest) = c :: rest := by
  simp [skipTrivia, h1, h2]

theorem takeWhile_append_of_all {p : Char → Bool} :
    ∀ (n rest : List Char), n.all p = true → headNot p rest = true →
      (n ++ rest).takeWhile p = n := by
  intro n rest h1 h2
  induction n with
  | nil =>
    cases rest with
    | nil => rfl
    | cons c t =>
      simp only [headNot, Bool.not_eq_true'] at h2
      simp [List.takeWhile_cons, h2]
  | cons c t ih =>
    simp only [List.all_cons, Bool.and_eq_true] at h1
    simp [List.takeWhile_cons, h1.1, ih h1.2]

theorem dropWhile_append_of_all {p : Char → Bool} :
    ∀ (n rest : List Char), n.all p = true → headNot p rest = true →
      (n ++ rest).dropWhile p = rest := by
  intro n rest h1 h2
  induction n with
  | nil =>
    cases rest with
    | nil => rfl
    | cons c t =>
      simp only [headNot, Bool.not_eq_true'] at h2
      simp [List.dropWhile_cons, h2]
  | cons c t ih =>
    simp only [List.all_cons, Bool.and_eq_true] at h1
    simp [List.dropWhile_cons, h1.1, ih h1.2]

/-- Lexing a well-formed identifier name at the head of the buffer. -/
theorem lexNext_ident {n rest : List Char} (h : isIdentName n = true)
    (h2 : headNot isAsciiAlphanumeric rest = true) :
    lexNext (n ++ rest) = .ok (some (.Identifier n, rest)) := by
  match n, h with
  | c :: t, h =>
    simp only [isIdentName, Bool.and_eq_true, decide_eq_true_eq] at h
    obtain ⟨⟨⟨ha, hall⟩, hkd⟩, hke⟩ := h
    have hws : isAsciiWhitespace c = false := alpha_not_ws ha
    have hh : c ≠ '#' := alpha_ne_hash ha
    have hst : skipTrivia false (c :: (t ++ rest)) = c :: (t ++ rest) :=
      skipTrivia_nontrivial hws hh
    have htw : List.takeWhile isAsciiAlphanumeric (c :: (t ++ rest)) = c :: t := by
      have h3 := takeWhile_append_of_all (c :: t) rest hall h2
      simpa using h3
    have hdw : List.dropWhile isAsciiAlphanumeric (c :: (t ++ rest)) = rest := by
      have h3 := dropWhile_append_of_all (c :: t) rest hall h2
      simpa using h3
    have key : lexNext (c :: (t ++ rest)) = .ok (some (.Identifier (c :: t), rest)) := by
      rw [lexNext, hst]
      simp only [lexNextCore, htw, hdw, alpha_isAlphabetic ha]
      simp [hkd, hke]
    simpa using key

/-- Lexing a symbol character at the head of the buffer. -/
theorem lexNext_symbol {c : Char} {rest : List Char}
    (h1 : isAsciiWhitespace c = false) (h2 : c ≠ '#')
    (h3 : isAlphabetic c = false) (h4 : isNumChar c = false) :
    lexNext (c :: rest) = .ok (some (.Symbol c, rest)) := by
  rw [lexNext, skipTrivia_nontrivial h1 h2]
  simp [lexNextCore, h3, h4]

theorem getNextToken_mk (tok : Option Token) {rest : List Char} {t : Token}
    {r : List Char} (h : lexNext rest = .ok (some (t, r))) :
    getNextToken ⟨tok, rest⟩ = .ok ⟨some t, r⟩ := by
  simp [getNextToken, h]

theorem getNextToken_eos (tok : Option Token) (rest : List Char)
    (h : lexNext rest = .ok none) :
    getNextToken ⟨tok, rest⟩ = .ok ⟨none, rest⟩ := by
  simp [getNextToken, h]

theorem prec_lt : getTokenPrecedence (some (.Symbol '<')) = ('<', 10) := rfl

theorem prec_plus : getTokenPrecedence (some (.Symbol '+')) = ('+', 20) := rfl

theorem prec_minus : getTokenPrecedence (some (.Symbol '-')) = ('-', 20) := rfl

theorem prec_star : getTokenPrecedence (some (.Symbol '*')) = ('*', 40) := rfl

theorem prec_none : getTokenPrecedence none = (' ', -1) := rfl

theorem prec_ident {n : List Char} :
    getTokenPrecedence (some (.Identifier n)) = (' ', -1) := rfl

/-- Lexing an identifier name that ends the buffer. -/
theorem lexNext_ident_eob {n : List Char} (h : isIdentName n = true) :
    lexNext n = .ok (some (.Identifier n, [])) := by
  have h3 := @lexNext_ident n [] h rfl
  simpa using h3

/-! ### C1, C2: precedence and associativity -/

set_option maxHeartbeats 1600000 in
/-- C1: for all variable names `a`, `b`, `c`, parsing `a+b*c` yields
`Binary('+', a, Binary('*', b, c))` and parsing `a*b+c` yields
`Binary('+', Binary('*', a, b), c)`: the higher-precedence `*`
(table `<`→10, `+`→20, `-`→20, `*`→40) binds tighter regardless of its
position in the chain. -/
theorem c1_precedence (fuel : Nat) (a b c : List Char)
    (ha : isIdentName a = true) (hb : isIdentName b = true) (hc : isIdentName c = true) :
    parse (fuel + 5) (a ++ '+' :: (b ++ '*' :: c)) =
      .ok [.exprU (.BinaryExpr '+' (.VariableExpr a)
        (.BinaryExpr '*' (.VariableExpr b) (.VariableExpr c)))] ∧
    parse (fuel + 5) (a ++ '*' :: (b ++ '+' :: c)) =
      .ok [.exprU (.BinaryExpr '+' (.BinaryExpr '*' (.VariableExpr a) (.VariableExpr b))
        (.VariableExpr c))] := by
  constructor
  · have lc : lexNext c = .ok (some (.Identifier c, [])) := lexNext_ident_eob hc
    have lb : lexNext (b ++ '*' :: c) = .ok (some (.Identifier b, '*' :: c)) :=
      lexNext_ident hb rfl
    have la : lexNext (a ++ '+' :: (b ++ '*' :: c)) =
        .ok (some (.Identifier a, '+' :: (b ++ '*' :: c))) :=
      lexNext_ident ha rfl
    have lp : lexNext ('+' :: (b ++ '*' :: c)) = .ok (some (.Symbol '+', b ++ '*' :: c)) :=
      lexNext_symbol (by decide) (by decide) (by decide) (by decide)
    have ls : lexNext ('*' :: c) = .ok (some (.Symbol '*', c)) :=
      lexNext_symbol (by decide) (by decide) (by decide) (by decide)
    have g0 := getNextToken_mk (none) la
    have g1 := getNextToken_mk (some (.Identifier a)) lp
    have g2 := getNextToken_mk (some (.Symbol '+')) lb
    have g3 := getNextToken_mk (some (.Identifier b)) ls
    have g4 := getNextToken_mk (some (.Symbol '*')) lc
    have g5 := getNextToken_eos (some (.Identifier c)) [] rfl
    have g6 := getNextToken_eos (none) [] rfl
    simp [parse, parseTop, parseExpression, parsePrimary, parseBinoprhs,
      prec_plus, prec_minus, prec_star, prec_none, g0, g1, g2, g3, g4, g5, g6]
  · have lc : lexNext c = .ok (some (.Identifier c, [])) := lexNext_ident_eob hc
    have lb : lexNext (b ++ '+' :: c) = .ok (some (.Identifier b, '+' :: c)) :=
      lexNext_ident hb rfl
    have la : lexNext (a ++ '*' :: (b ++ '+' :: c)) =
        .ok (some (.Identifier a, '*' :: (b ++ '+' :: c))) :=
      lexNext_ident ha rfl
    have ls : lexNext ('*' :: (b ++ '+' :: c)) = .ok (some (.Symbol '*', b ++ '+' :: c)) :=
      lexNext_symbol (by decide) (by decide) (by decide) (by decide)
    have lp : lexNext ('+' :: c) = .ok (some (.Symbol '+', c)) :=
      lexNext_symbol (by decide) (by decide) (by decide) (by decide)
    have g0 := getNextToken_mk (none) la
    have g1 := getNextToken_mk (some (.Identifier a)) ls
    have g2 := getNextToken_mk (some (.Symbol '*')) lb
    have g3 := getNextToken_mk (some (.Identifier b)) lp
    have g4 := getNextToken_mk (some (.Symbol '+')) lc
    have g5 := getNextToken_eos (some (.Identifier c)) [] rfl
    have g6 := getNextToken_eos (none) [] rfl
    simp [parse, parseTop, parseExpression, parsePrimary, parseBinoprhs,
      prec_plus, prec_minus, prec_star, prec_none, g0, g1, g2, g3, g4, g5, g6]

/-- Witness for `c1_precedence` at the names `a`, `b`, `c` and fuel 5. -/
theorem c1_precedence_witness :
    parse 5 ['a', '+', 'b', '*', 'c'] =
      .ok [.exprU (.BinaryExpr '+' (.VariableExpr ['a'])
        (.BinaryExpr '*' (.VariableExpr ['b']) (.VariableExpr ['c'])))] ∧
    parse 5 ['a', '*', 'b', '+', 'c'] =
      .ok [.exprU (.BinaryExpr '+' (.BinaryExpr '*' (.VariableExpr ['a']) (.VariableExpr ['b']))
        (.VariableExpr ['c']))] :=
  c1_precedence 0 ['a'] ['b'] ['c'] (by decide) (by decide) (by decide)

set_option maxHeartbeats 1600000 in
/-- C2: for all variable names `a`, `b`, `c`, the equal-precedence chain
`a-b-c` parses left-associated, `Binary('-', Binary('-', a, b), c)` —
and that tree is distinct from the right-associated one, so a trailing
operator of equal precedence does not absorb the right-hand side. -/
theorem c2_left_assoc (fuel : Nat) (a b c : List Char)
    (ha : isIdentName a = true) (hb : isIdentName b = true) (hc : isIdentName c = true) :
    parse (fuel + 5) (a ++ '-' :: (b ++ '-' :: c)) =
      .ok [.exprU (.BinaryExpr '-' (.BinaryExpr '-' (.VariableExpr a) (.VariableExpr b))
        (.VariableExpr c))] ∧
    (.BinaryExpr '-' (.BinaryExpr '-' (.VariableExpr a) (.VariableExpr b))
        (.VariableExpr c) : Expr) ≠
      .BinaryExpr '-' (.VariableExpr a) (.BinaryExpr '-' (.VariableExpr b) (.VariableExpr c)) := by
  constructor
  · have lc : lexNext c = .ok (some (.Identifier c, [])) := lexNext_ident_eob hc
    have lb : lexNext (b ++ '-' :: c) = .ok (some (.Identifier b, '-' :: c)) :=
      lexNext_ident hb rfl
    have la : lexNext (a ++ '-' :: (b ++ '-' :: c)) =
        .ok (some (.Identifier a, '-' :: (b ++ '-' :: c))) :=
      lexNext_ident ha rfl
    have lm1 : lexNext ('-' :: (b ++ '-' :: c)) = .ok (some (.Symbol '-', b ++ '-' :: c)) :=
      lexNext_symbol (by decide) (by decide) (by decide) (by decide)
    have lm2 : lexNext ('-' :: c) = .ok (some (.Symbol '-', c)) :=
      lexNext_symbol (by decide) (by decide) (by decide) (by decide)
    have g0 := getNextToken_mk (none) la
    have g1 := getNextToken_mk (some (.Identifier a)) lm1
    have g2 := getNextToken_mk (some (.Symbol '-')) lb
    have g3 := getNextToken_mk (some (.Identifier b)) lm2
    have g4 := getNextToken_mk (some (.Symbol '-')) lc
    have g5 := getNextToken_eos (some (.Identifier c)) [] rfl
    have g6 := getNextToken_eos (none) [] rfl
    simp [parse, parseTop, parseExpression, parsePrimary, parseBinoprhs,
      prec_plus, prec_minus, prec_star, prec_none, g0, g1, g2, g3, g4, g5, g6]
  · intro h
    injection h with _ hl _
    injection hl

/-- Witness for `c2_left_assoc` at the names `a`, `b`, `c` and fuel 5. -/
theorem c2_left_assoc_witness :
    parse 5 ['a', '-', 'b', '-', 'c'] =
      .ok [.exprU (.BinaryExpr '-' (.BinaryExpr '-' (.VariableExpr ['a']) (.VariableExpr ['b']))
        (.VariableExpr ['c']))] :=
  (c2_left_assoc 0 ['a'] ['b'] ['c'] (by decide) (by decide) (by decide)).1

/-! ### C3: definition end-to-end -/

/-- C3: parsing `def test(x) (1+2+x)*(x+(1+2))` yields the function
`Function{Prototype{"test", ["x"]},
Binary('*', Binary('+', Binary('+', 1, 2), x), Binary('+', x, Binary('+', 1, 2)))}`:
parenthesized subexpressions override precedence, and a definition is
`def`, a prototype, and one body expression. -/
theorem c3_definition :
    parse 20 ((r"def test(x) (1+2+x)*(x+(1+2))").toList) =
      .ok [.funcU ⟨⟨['t', 'e', 's', 't'], [['x']]⟩,
        .BinaryExpr '*'
          (.BinaryExpr '+' (.BinaryExpr '+' (.NumberExpr ['1']) (.NumberExpr ['2']))
            (.VariableExpr ['x']))
          (.BinaryExpr '+' (.VariableExpr ['x'])
            (.BinaryExpr '+' (.NumberExpr ['1']) (.NumberExpr ['2'])))⟩] := rfl

/-! ### C6, C7: identifier disambiguation and the argument-list loop -/

/-- C6: an `Identifier` immediately followed by `(` parses as a call,
otherwise as a variable reference: generically, `parse_primary` on an
identifier whose successor token is not `(` yields `Variable`; and
concretely `f(a,b)` yields `Call{"f", [a, b]}` (arguments in source
order), `f()` yields `Call{"f", []}`, and bare `f` yields
`Variable("f")`. -/
theorem c6_ident_disambiguation :
    (∀ (fuel : Nat) (s s' : PState) (n : List Char),
      s.tok = some (.Identifier n) → getNextToken s = .ok s' →
      s'.tok ≠ some (.Symbol '(') →
      parsePrimary (fuel + 1) s = .ok (.VariableExpr n, s')) ∧
    parse 9 ((r"f(a,b)").toList) =
      .ok [.exprU (.CallExpr ['f'] [.VariableExpr ['a'], .VariableExpr ['b']])] ∧
    parse 9 ((r"f()").toList) = .ok [.exprU (.CallExpr ['f'] [])] ∧
    parse 9 ((r"f").toList) = .ok [.exprU (.VariableExpr ['f'])] := by
  refine ⟨?_, rfl, rfl, rfl⟩
  intro fuel s s' n h1 h2 h3
  simp [parsePrimary, h1, h2, h3]

/-- Witness for the hypothesis-bearing conjunct of
`c6_ident_disambiguation`: the identifier `f` followed by `+` parses as
a variable reference. -/
theorem c6_ident_disambiguation_witness :
    parsePrimary 1 ⟨some (.Identifier ['f']), ['+']⟩ =
      .ok (.VariableExpr ['f'], ⟨some (.Symbol '+'), []⟩) :=
  c6_ident_disambiguation.1 0 ⟨some (.Identifier ['f']), ['+']⟩
    ⟨some (.Symbol '+'), []⟩ ['f'] rfl rfl (by decide)

/-- C7: in a call argument list, `,` is consumed as a pure separator
with no structural requirement: `f(,a)` parses to `Call{"f", [a]}`,
`f(a,,b)` to `Call{"f", [a, b]}`, and `f(a b)` to the same node as
`f(a,b)`. -/
theorem c7_comma_separator :
    parse 9 ((r"f(,a)").toList) = .ok [.exprU (.CallExpr ['f'] [.VariableExpr ['a']])] ∧
    parse 9 ((r"f(a,,b)").toList) =
      .ok [.exprU (.CallExpr ['f'] [.VariableExpr ['a'], .VariableExpr ['b']])] ∧
    parse 9 ((r"f(a b)").toList) = parse 9 ((r"f(a,b)").toList) ∧
    parse 9 ((r"f(a,b)").toList) =
      .ok [.exprU (.CallExpr ['f'] [.VariableExpr ['a'], .VariableExpr ['b']])] :=
  ⟨rfl, rfl, rfl, rfl⟩

/-! ### C5: lexer progress and termination -/

theorem skipLine_length_le : ∀ l : List Char, (skipLine l).length ≤ l.length := by
  intro l
  induction l with
  | nil => simp [skipLine]
  | cons c t ih =>
    by_cases h : c = '\n' <;> simp [skipLine, h] <;> omega

theorem skipTrivia_length_le : ∀ (m : Bool) (l : List Char),
    (skipTrivia m l).length ≤ l.length := by
  intro m l
  induction l generalizing m with
  | nil => simp [skipTrivia]
  | cons c t ih =>
    cases m with
    | true =>
      by_cases h : c = '\n' <;> simp [skipTrivia, h] <;>
        exact le_trans (ih _) (by omega)
    | false =>
      by_cases h1 : isAsciiWhitespace c
      · simp [skipTrivia, h1]
        exact le_trans (ih _) (by omega)
      · by_cases h2 : c = '#' <;> simp [skipTrivia, h1, h2]
        exact le_trans (ih _) (by omega)

theorem skipTrivia_all {p : Char → Bool} : ∀ (l : List Char) (m : Bool),
    l.all p = true → (skipTrivia m l).all p = true := by
  intro l
  induction l with
  | nil => intro m h; simpa [skipTrivia] using h
  | cons c t ih =>
    intro m h
    simp only [List.all_cons, Bool.and_eq_true] at h
    cases m with
    | true =>
      by_cases hc : c = '\n'
      · simp only [skipTrivia, hc, if_true]
        exact ih false h.2
      · simp only [skipTrivia, hc, if_false]
        exact ih true h.2
    | false =>
      by_cases h1 : isAsciiWhitespace c
      · simp only [skipTrivia, h1, if_true]
        exact ih false h.2
      · by_cases h2 : c = '#'
        · simp only [skipTrivia, h1, Bool.false_eq_true, if_false, h2, if_true]
          exact ih true h.2
        · simp only [skipTrivia, h1, Bool.false_eq_true, if_false, h2]
          simp [h.1, h.2]

theorem dropWhile_length_le {p : Char → Bool} : ∀ l : List Char,
    (l.dropWhile p).length ≤ l.length := by
  intro l
  induction l with
  | nil => simp
  | cons c t ih =>
    by_cases h : p c <;> simp [List.dropWhile_cons, h] <;> omega

/-- A byte that Rust's `char::is_alphabetic` accepts and that is ASCII
is an ASCII letter. -/
theorem ascii_alphabetic {c : Char} (h1 : isAlphabetic c = true)
    (h2 : isAsciiChar c = true) : isAsciiAlpha c = true := by
  simp only [isAlphabetic, isAsciiChar, isAsciiAlpha, Bool.or_eq_true, Bool.and_eq_true,
    decide_eq_true_eq] at *
  omega

/-- Single-step progress: on an all-ASCII buffer, every produced token
consumes at least one byte. -/
theorem lexNext_progress {l : List Char} {t : Token} {r : List Char}
    (hascii : l.all isAsciiChar = true) (h : lexNext l = .ok (some (t, r))) :
    r.length < l.length := by
  rw [lexNext] at h
  rcases hm : skipTrivia false l with _ | ⟨c, rest⟩
  · rw [hm] at h
    simp [lexNextCore] at h
  · rw [hm] at h
    have hlen : (c :: rest).length ≤ l.length := by
      have := skipTrivia_length_le false l
      rwa [hm] at this
    have hall : (c :: rest).all isAsciiChar = true := by
      have := skipTrivia_all l false hascii
      rwa [hm] at this
    simp only [List.all_cons, Bool.and_eq_true] at hall
    simp only [lexNextCore] at h
    by_cases ha : isAlphabetic c
    · have halnum : isAsciiAlphanumeric c = true := by
        simp [isAsciiAlphanumeric, ascii_alphabetic ha hall.1]
      have hdw : List.dropWhile isAsciiAlphanumeric (c :: rest) =
          List.dropWhile isAsciiAlphanumeric rest := by
        simp [List.dropWhile_cons, halnum]
      simp only [ha, if_true] at h
      have hr : r = List.dropWhile isAsciiAlphanumeric (c :: rest) := by
        by_cases h1 : List.takeWhile isAsciiAlphanumeric (c :: rest) = kwDef
        · simp [h1, kwDef, kwExt] at h
          exact h.2.symm
        · by_cases h2 : List.takeWhile isAsciiAlphanumeric (c :: rest) = kwExt
          · simp [h1, h2, kwDef, kwExt] at h
            exact h.2.symm
          · simp [h1, h2] at h
            exact h.2.symm
      have := dropWhile_length_le (p := isAsciiAlphanumeric) rest
      rw [hr, hdw]
      simp only [List.length_cons] at hlen
      omega
    · by_cases hn : isNumChar c
      · simp only [ha, if_false, hn, if_true] at h
        by_cases hv : validF64 (List.takeWhile isNumChar (c :: rest))
        · simp [hv] at h
          have hdw : List.dropWhile isNumChar (c :: rest) =
              List.dropWhile isNumChar rest := by
            simp [List.dropWhile_cons, hn]
          have := dropWhile_length_le (p := isNumChar) rest
          rw [← h.2, hdw]
          simp only [List.length_cons] at hlen
          omega
        · simp [hv] at h
      · simp only [ha, if_false, hn, if_false] at h
        cases h
        simp only [List.length_cons] at hlen
        omega

/-- If a `lexRun` finishes within some fuel, any larger fuel gives the
same outcome. -/
theorem lexRun_mono : ∀ (f f2 : Nat) (l : List Char) (o : LexOut),
    f ≤ f2 → lexRun f l = some o → lexRun f2 l = some o := by
  intro f
  induction f with
  | zero => intro f2 l o _ h; simp [lexRun] at h
  | succ f ih =>
    intro f2 l o hle h
    rcases f2 with _ | f2
    · omega
    rw [lexRun] at h ⊢
    rcases hx : lexNext l with e | x
    · simp only [hx] at h ⊢
      exact h
    rcases x with _ | ⟨t, r⟩
    · simp only [hx] at h ⊢
      exact h
    · simp only [hx] at h ⊢
      rcases hrun : lexRun f r with _ | o2
      · rw [hrun] at h
        simp at h
      · rw [hrun] at h
        rw [ih f2 r o2 (by omega) hrun]
        exact h

/-- Fuel `l.length + 1` always suffices to drain an all-ASCII buffer. -/
theorem lexRun_ascii_total : ∀ (n : Nat) (l : List Char), l.length ≤ n →
    l.all isAsciiChar = true → (lexRun (n + 1) l).isSome = true := by
  intro n
  induction n with
  | zero =>
    intro l hlen hascii
    rcases l with _ | ⟨c, t⟩
    · simp [lexRun, lexNext, skipTrivia, lexNextCore]
    · simp only [List.length_cons] at hlen
      omega
  | succ n ih =>
    intro l hlen hascii
    rw [lexRun]
    rcases hx : lexNext l with e | x
    · simp [hx]
    rcases x with _ | ⟨t, r⟩
    · simp [hx]
    have hprog : r.length < l.length := lexNext_progress hascii hx
    have hr_ascii : r.all isAsciiChar = true := by
      rw [lexNext] at hx
      rcases hm : skipTrivia false l with _ | ⟨c, rest⟩
      · rw [hm] at hx; simp [lexNextCore] at hx
      · have hall : (c :: rest).all isAsciiChar = true := by
          have := skipTrivia_all l false hascii
          rwa [hm] at this
        rw [hm] at hx
        simp only [lexNextCore] at hx
        simp only [List.all_cons, Bool.and_eq_true] at hall
        by_cases ha : isAlphabetic c
        · simp only [ha, if_true] at hx
          have hdws : (List.dropWhile isAsciiAlphanumeric (c :: rest)).all isAsciiChar = true := by
            have hc : (c :: rest).all isAsciiChar = true := by
              simp [List.all_cons, hall.1, hall.2]
            clear hx hm
            generalize c :: rest = m at hc ⊢
            induction m with
            | nil => simp
            | cons d u ihm =>
              simp only [List.all_cons, Bool.and_eq_true] at hc
              by_cases hd : isAsciiAlphanumeric d
              · simp [List.dropWhile_cons, hd, ihm hc.2]
              · simp [List.dropWhile_cons, hd, hc.1, hc.2]
          by_cases h1 : List.takeWhile isAsciiAlphanumeric (c :: rest) = kwDef
          · simp [h1, kwDef, kwExt] at hx
            rwa [← hx.2]
          · by_cases h2 : List.takeWhile isAsciiAlphanumeric (c :: rest) = kwExt
            · simp [h1, h2, kwDef, kwExt] at hx
              rwa [← hx.2]
            · simp [h1, h2] at hx
              rwa [← hx.2]
        · by_cases hn : isNumChar c
          · simp only [ha, if_false, hn, if_true] at hx
            by_cases hv : validF64 (List.takeWhile isNumChar (c :: rest))
            · simp [hv] at hx
              have hdws : (List.dropWhile isNumChar (c :: rest)).all isAsciiChar = true := by
                have hc : (c :: rest).all isAsciiChar = true := by
                  simp [List.all_cons, hall.1, hall.2]
                clear hx hm
                generalize c :: rest = m at hc ⊢
                induction m with
                | nil => simp
                | cons d u ihm =>
                  simp only [List.all_cons, Bool.and_eq_true] at hc
                  by_cases hd : isNumChar d
                  · simp [List.dropWhile_cons, hd, ihm hc.2]
                  · simp [List.dropWhile_cons, hd, hc.1, hc.2]
              rwa [← hx.2]
            · simp [hv] at hx
          · simp only [ha, if_false, hn, if_false] at hx
            cases hx
            exact hall.2
    have hihr := ih r (by omega) hr_ascii
    rcases hrun : lexRun (n + 1) r with _ | o2
    · rw [hrun] at hihr
      simp at hihr
    · rcases o2 with ts | _ <;> simp [hx, hrun]

/-- C5 (amended): on buffers of ASCII bytes the token stream is finite
and ends at buffer exhaustion — fuel `length + 1` always drains the
lexer, and every produced token consumes at least one byte; moreover,
on any buffer, a head byte that is not whitespace, not `#`, not
alphabetic, and not an ASCII digit or `.` is emitted as `Symbol`
carrying exactly that byte, with no validity check. -/
theorem c5_lexer_termination :
    (∀ l : List Char, l.all isAsciiChar = true →
      (lexRun (l.length + 1) l).isSome = true) ∧
    (∀ (l : List Char) (t : Token) (r : List Char), l.all isAsciiChar = true →
      lexNext l = .ok (some (t, r)) → r.length < l.length) ∧
    (∀ (c : Char) (rest : List Char), isAsciiWhitespace c = false → c ≠ '#' →
      isAlphabetic c = false → isAsciiDigit c = false → c ≠ '.' →
      lexNext (c :: rest) = .ok (some (.Symbol c, rest))) := by
  refine ⟨?_, ?_, ?_⟩
  · intro l h
    exact lexRun_ascii_total l.length l le_rfl h
  · intro l t r h1 h2
    exact lexNext_progress h1 h2
  · intro c rest h1 h2 h3 h4 h5
    apply lexNext_symbol h1 h2 h3
    simp [isNumChar, h4, h5]

/-- Witness for `c5_lexer_termination` at the buffers `"+"` and `"$"`. -/
theorem c5_lexer_termination_witness :
    (lexRun 2 ['+']).isSome = true ∧ (0 : Nat) < 1 ∧
    lexNext ['$'] = .ok (some (.Symbol '$', [])) :=
  ⟨c5_lexer_termination.1 ['+'] (by decide),
   c5_lexer_termination.2.1 ['+'] (.Symbol '+') [] (by decide) rfl,
   c5_lexer_termination.2.2 '$' [] (by decide) (by decide) (by decide) (by decide)
     (by decide)⟩

/-- The two bytes of the UTF-8 encoding of `"Ã"` (U+00C3), a valid Rust
`&str`: 0xC3, 0x83.  Byte 0xC3 cast to `char` is alphabetic, but is not
ASCII-alphanumeric, so `Lexer::identifier` scans an empty run. -/
def nonAsciiBuf : List Char := [Char.ofNat 0xC3, Char.ofNat 0x83]

/-- Counterexample to C5 as stated: on the buffer `"Ã"` the lexer
produces the token `Identifier("")` while consuming zero characters
(the remaining buffer suffix equals the whole buffer), so the stream
never reaches end of buffer — `lexRun` finds no end within 100 steps
(nor within any number of steps, as the state repeats). -/
theorem c5_counterexample :
    lexNext nonAsciiBuf = .ok (some (.Identifier [], nonAsciiBuf)) ∧
    lexRun 100 nonAsciiBuf = none :=
  ⟨rfl, rfl⟩

/-! ### C8: malformed numeric literals -/

/-- A digit or dot byte is not alphabetic, so the numeric branch of
`Lexer::next` is the one taken. -/
theorem numChar_not_alphabetic {c : Char} (h : isNumChar c = true) :
    isAlphabetic c = false := by
  have hv : 48 ≤ c.toNat ∧ c.toNat ≤ 57 ∨ c.toNat = 46 := by
    simp only [isNumChar, isAsciiDigit, Bool.or_eq_true, Bool.and_eq_true,
      decide_eq_true_eq] at h
    rcases h with h | h
    · exact Or.inl h
    · right
      rw [h]
      rfl
  rw [← Bool.not_eq_true]
  intro hcontra
  simp only [isAlphabetic, isAsciiAlpha, Bool.or_eq_true, Bool.and_eq_true,
    decide_eq_true_eq] at hcontra
  omega

/-- C8: whenever the scanner reaches a run of digits/dots that is not
parseable as an f64 (more than one dot, or no digit at all, e.g.
`1.2.3` or a bare `.`), lexing fails unrecoverably: `lexNext` produces
the fatal `lexFailure` instead of a `Number` token, the token stream
ends in `failed` with no further tokens, and the parser aborts the
whole buffer with the same failure. -/
theorem c8_malformed_number :
    (∀ (l : List Char) (c : Char) (rest : List Char),
      skipTrivia false l = c :: rest → isNumChar c = true →
      validF64 ((c :: rest).takeWhile isNumChar) = false →
      lexNext l = .error .lexFailure) ∧
    (∀ (fuel : Nat) (l : List Char), lexNext l = .error .lexFailure →
      lexRun (fuel + 1) l = some .failed) ∧
    (∀ (fuel : Nat) (s : PState), lexNext s.rest = .error .lexFailure →
      parseTop (fuel + 1) s = .error .lexFailure) := by
  refine ⟨?_, ?_, ?_⟩
  · intro l c rest hm hn hv
    rw [lexNext, hm]
    simp only [List.takeWhile_cons, hn, if_true] at hv
    simp [lexNextCore, numChar_not_alphabetic hn, hn, hv]
  · intro fuel l h
    simp [lexRun, h]
  · intro fuel s h
    simp [parseTop, getNextToken, h]

/-- Witness for `c8_malformed_number` at the buffer `1.2.3`. -/
theorem c8_malformed_number_witness :
    lexNext ((r"1.2.3").toList) = .error .lexFailure ∧
    lexRun 1 ((r"1.2.3").toList) = some .failed ∧
    parseTop 1 ⟨none, (r"1.2.3").toList⟩ = .error .lexFailure := by
  have h1 : lexNext ((r"1.2.3").toList) = .error .lexFailure :=
    c8_malformed_number.1 ((r"1.2.3").toList) '1' ['.', '2', '.', '3'] rfl (by decide)
      (by decide)
  exact ⟨h1, c8_malformed_number.2.1 0 ((r"1.2.3").toList) h1,
    c8_malformed_number.2.2 0 ⟨none, (r"1.2.3").toList⟩ h1⟩

/-! ### C10: buffers of pure trivia -/

/-- A buffer consisting only of ASCII whitespace, `#`-to-end-of-line
comments, and bare `;` tokens. -/
inductive IsTrivia : List Char → Prop where
  | nil : IsTrivia []
  | ws {c : Char} {rest : List Char} : isAsciiWhitespace c = true → IsTrivia rest →
      IsTrivia (c :: rest)
  | semi {rest : List Char} : IsTrivia rest → IsTrivia (';' :: rest)
  | comment {rest : List Char} : IsTrivia (skipLine rest) → IsTrivia ('#' :: rest)

theorem skipTrivia_true_skipLine : ∀ l : List Char,
    skipTrivia true l = skipTrivia false (skipLine l) := by
  intro l
  induction l with
  | nil => rfl
  | cons c t ih =>
    by_cases h : c = '\n'
    · simp [skipTrivia, skipLine, h]
    · simp [skipTrivia, skipLine, h, ih]

theorem lexNext_cons_ws {c : Char} {rest : List Char}
    (h : isAsciiWhitespace c = true) : lexNext (c :: rest) = lexNext rest := by
  rw [lexNext, lexNext]
  congr 1
  simp [skipTrivia, h]

theorem lexNext_cons_comment {rest : List Char} :
    lexNext ('#' :: rest) = lexNext (skipLine rest) := by
  rw [lexNext, lexNext]
  congr 1
  have hws : isAsciiWhitespace '#' = false := by decide
  simp [skipTrivia, hws, skipTrivia_true_skipLine]

/-- On a trivia buffer, the lexer yields either end-of-stream or a `;`
symbol followed by a strictly shorter trivia buffer. -/
theorem trivia_lexNext {l : List Char} (h : IsTrivia l) :
    lexNext l = .ok none ∨
      ∃ r, lexNext l = .ok (some (.Symbol ';', r)) ∧ IsTrivia r ∧ r.length < l.length := by
  induction h with
  | nil => exact Or.inl rfl
  | ws hb _ ih =>
    rcases ih with h1 | ⟨r, h1, h2, h3⟩
    · left
      rw [lexNext_cons_ws hb]
      exact h1
    · right
      refine ⟨r, ?_, h2, ?_⟩
      · rw [lexNext_cons_ws hb]
        exact h1
      · simp only [List.length_cons]
        omega
  | @semi rest hr _ =>
    right
    refine ⟨rest, ?_, hr, by simp⟩
    exact lexNext_symbol (by decide) (by decide) (by decide) (by decide)
  | @comment rest _ ih =>
    rcases ih with h1 | ⟨r, h1, h2, h3⟩
    · left
      rw [lexNext_cons_comment]
      exact h1
    · right
      refine ⟨r, ?_, h2, ?_⟩
      · rw [lexNext_cons_comment]
        exact h1
      · have := skipLine_length_le rest
        simp only [List.length_cons]
        omega

/-- The top-level loop on a trivia buffer: only `;` tokens arrive, each
is skipped, and the loop ends at end-of-stream with no unit. -/
theorem trivia_parseTop : ∀ (n : Nat) (l : List Char) (tok : Option Token),
    l.length < n → IsTrivia l → parseTop n ⟨tok, l⟩ = .ok [] := by
  intro n
  induction n with
  | zero =>
    intro l tok h _
    omega
  | succ n ih =>
    intro l tok hlen ht
    rcases trivia_lexNext ht with h1 | ⟨r, h1, h2, h3⟩
    · have g : getNextToken ⟨tok, l⟩ = .ok ⟨none, l⟩ := getNextToken_eos tok l h1
      simp [parseTop, g]
    · have g : getNextToken ⟨tok, l⟩ = .ok ⟨some (.Symbol ';'), r⟩ := getNextToken_mk tok h1
      simp only [parseTop, g, ok_bind]
      simp only [reduceIte]
      exact ih r (some (.Symbol ';')) (by omega) h2

/-- C10: for every buffer consisting only of ASCII whitespace,
`#`-to-end-of-line comments, and bare `;` tokens — including the empty
buffer — `Parser::parse` terminates normally with an empty accumulated
unit list: no error is raised and no AST unit is produced. -/
theorem c10_trivia_buffers (buf : List Char) (h : IsTrivia buf) :
    parse (buf.length + 1) buf = .ok [] :=
  trivia_parseTop (buf.length + 1) buf none (by omega) h

/-- Witness for `c10_trivia_buffers` at the buffer `" ;"`. -/
theorem c10_trivia_buffers_witness : parse 3 [' ', ';'] = .ok [] :=
  c10_trivia_buffers [' ', ';'] (IsTrivia.ws rfl (IsTrivia.semi IsTrivia.nil))

/-! ### C9: every constructed Binary operator is in the table -/

/-- Every `Binary` node in the tree carries an operator that is a key of
`BINOP_PRECEDENCE`. -/
inductive OpsOk : Expr → Prop where
  | num {raw : List Char} : OpsOk (.NumberExpr raw)
  | var {name : List Char} : OpsOk (.VariableExpr name)
  | bin {op : Char} {l r : Expr} : (List.lookup op BINOP_PRECEDENCE).isSome = true →
      OpsOk l → OpsOk r → OpsOk (.BinaryExpr op l r)
  | call {callee : List Char} {args : List Expr} : (∀ e ∈ args, OpsOk e) →
      OpsOk (.CallExpr callee args)

/-- The `OpsOk` invariant lifted to a top-level unit (prototypes contain
no expressions). -/
def UnitOpsOk : TopUnit → Prop
  | .funcU f => OpsOk f.body
  | .protoU _ => True
  | .exprU e => OpsOk e

/-- `get_token_precedence` only reports a nonnegative precedence for an
operator present in the table; everything else gets `(' ', -1)`. -/
theorem getTokenPrecedence_mem {tok : Option Token} {op : Char} {p : Int}
    (h : getTokenPrecedence tok = (op, p)) (hp : 0 ≤ p) :
    (List.lookup op BINOP_PRECEDENCE).isSome = true := by
  rcases tok with _ | t
  · simp only [getTokenPrecedence, Prod.mk.injEq] at h
    obtain ⟨h1, h2⟩ := h
    omega
  · rcases t with _ | _ | name | n | c
    · simp only [getTokenPrecedence, Prod.mk.injEq] at h
      obtain ⟨h1, h2⟩ := h
      omega
    · simp only [getTokenPrecedence, Prod.mk.injEq] at h
      obtain ⟨h1, h2⟩ := h
      omega
    · simp only [getTokenPrecedence, Prod.mk.injEq] at h
      obtain ⟨h1, h2⟩ := h
      omega
    · simp only [getTokenPrecedence, Prod.mk.injEq] at h
      obtain ⟨h1, h2⟩ := h
      omega
    · simp only [getTokenPrecedence] at h
      rcases hl : List.lookup c BINOP_PRECEDENCE with _ | q
      · simp only [hl, Prod.mk.injEq] at h
        obtain ⟨h1, h2⟩ := h
        omega
      · simp only [hl, Prod.mk.injEq] at h
        obtain ⟨h1, h2⟩ := h
        rw [← h1, hl]
        rfl

/-- The per-function operator invariant, proved for all four mutually
recursive expression parsers simultaneously by induction on fuel. -/
theorem parseOps : ∀ fuel : Nat,
    (∀ (s : PState) (r : Expr × PState), parseExpression fuel s = .ok r → OpsOk r.1) ∧
    (∀ (s : PState) (r : Expr × PState), parsePrimary fuel s = .ok r → OpsOk r.1) ∧
    (∀ (s : PState) (acc : List Expr) (r : List Expr × PState),
      parseCallArgs fuel s acc = .ok r → (∀ e ∈ acc, OpsOk e) → ∀ e ∈ r.1, OpsOk e) ∧
    (∀ (lhs : Expr) (p : Int) (s : PState) (r : Expr × PState), 0 ≤ p → OpsOk lhs →
      parseBinoprhs fuel lhs p s = .ok r → OpsOk r.1) := by
  intro fuel
  induction fuel with
  | zero =>
    refine ⟨?_, ?_, ?_, ?_⟩
    · intro s r h
      simp [parseExpression] at h
    · intro s r h
      simp [parsePrimary] at h
    · intro s acc r h _
      simp [parseCallArgs] at h
    · intro lhs p s r _ _ h
      simp [parseBinoprhs] at h
  | succ f ih =>
    obtain ⟨ihE, ihP, ihA, ihB⟩ := ih
    refine ⟨?_, ?_, ?_, ?_⟩
    · -- parseExpression
      intro s r h
      simp only [parseExpression] at h
      rcases hp : parsePrimary f s with e | ⟨lhs, s1⟩
      · simp [hp] at h
      · simp only [hp, ok_bind] at h
        exact ihB lhs 0 s1 r le_rfl (ihP s (lhs, s1) hp) h
    · -- parsePrimary
      intro s r h
      rcases htok : s.tok with _ | t
      · simp [parsePrimary, htok] at h
      · rcases t with _ | _ | name | n | c
        · simp [parsePrimary, htok] at h
        · simp [parsePrimary, htok] at h
        · -- Identifier
          simp only [parsePrimary, htok] at h
          rcases hg : getNextToken s with e | s1
          · simp [hg] at h
          simp only [hg, ok_bind] at h
          by_cases hb : s1.tok = some (.Symbol '(')
          · rw [if_pos hb] at h
            rcases hg2 : getNextToken s1 with e | s2
            · simp [hg2] at h
            simp only [hg2, ok_bind] at h
            rcases ha : parseCallArgs f s2 [] with e | ⟨args, s3⟩
            · simp [ha] at h
            simp only [ha, ok_bind, pure_eq_ok] at h
            cases h
            exact OpsOk.call (ihA s2 [] (args, s3) ha (by simp))
          · rw [if_neg hb] at h
            simp only [pure_eq_ok] at h
            cases h
            exact OpsOk.var
        · -- Number
          simp only [parsePrimary, htok] at h
          rcases hg : getNextToken s with e | s1
          · simp [hg] at h
          simp only [hg, ok_bind, pure_eq_ok] at h
          cases h
          exact OpsOk.num
        · -- Symbol c
          simp only [parsePrimary, htok] at h
          by_cases hc : c = '('
          · rw [if_pos hc] at h
            rcases hg : getNextToken s with e | s1
            · simp [hg] at h
            simp only [hg, ok_bind] at h
            rcases he : parseExpression f s1 with e2 | ⟨ex, s2⟩
            · simp [he] at h
            simp only [he, ok_bind] at h
            by_cases hb2 : s2.tok = some (.Symbol ')')
            · rw [if_pos hb2] at h
              rcases hg2 : getNextToken s2 with e2 | s3
              · simp [hg2] at h
              simp only [hg2, ok_bind, pure_eq_ok] at h
              cases h
              exact ihE s1 (ex, s2) he
            · rw [if_neg hb2] at h
              simp at h
          · rw [if_neg hc] at h
            simp at h
    · -- parseCallArgs
      intro s acc r h hacc
      simp only [parseCallArgs] at h
      by_cases h1 : s.tok = some (.Symbol ')')
      · rw [if_pos h1] at h
        rcases hg : getNextToken s with e | s1
        · simp [hg] at h
        simp only [hg, ok_bind, pure_eq_ok] at h
        cases h
        exact hacc
      · rw [if_neg h1] at h
        by_cases h2 : s.tok = some (.Symbol ',')
        · rw [if_pos h2] at h
          rcases hg : getNextToken s with e | s1
          · simp [hg] at h
          simp only [hg, ok_bind] at h
          exact ihA s1 acc r h hacc
        · rw [if_neg h2] at h
          rcases he : parseExpression f s with e | ⟨ex, s1⟩
          · simp [he] at h
          simp only [he, ok_bind] at h
          refine ihA s1 (acc ++ [ex]) r h ?_
          intro e2 he2
          rcases List.mem_append.mp he2 with h3 | h3
          · exact hacc e2 h3
          · simp only [List.mem_singleton] at h3
            rw [h3]
            exact ihE s (ex, s1) he
    · -- parseBinoprhs
      intro lhs p s r hp hlhs h
      simp only [parseBinoprhs] at h
      rcases hpr : getTokenPrecedence s.tok with ⟨op, prec⟩
      simp only [hpr] at h
      by_cases hlt : prec < p
      · rw [if_pos hlt] at h
        simp only [pure_eq_ok] at h
        cases h
        exact hlhs
      · rw [if_neg hlt] at h
        have hge : (0 : Int) ≤ prec := le_trans hp (not_lt.mp hlt)
        have hop : (List.lookup op BINOP_PRECEDENCE).isSome = true :=
          getTokenPrecedence_mem hpr hge
        rcases hg : getNextToken s with e | s1
        · simp [hg] at h
        simp only [hg, ok_bind] at h
        rcases hprim : parsePrimary f s1 with e | ⟨rhs, s2⟩
        · simp [hprim] at h
        simp only [hprim, ok_bind] at h
        have hrhs : OpsOk rhs := ihP s1 (rhs, s2) hprim
        by_cases hcmp : prec < (getTokenPrecedence s2.tok).2
        · rw [if_pos hcmp] at h
          rcases hinner : parseBinoprhs f rhs (prec + 1) s2 with e | ⟨rhs2, s3⟩
          · simp [hinner] at h
          · rw [hinner] at h
            simp only [ok_bind] at h
            have hrhs2 : OpsOk rhs2 :=
              ihB rhs (prec + 1) s2 (rhs2, s3) (by omega) hrhs hinner
            exact ihB (.BinaryExpr op lhs rhs2) p s3 r hp (OpsOk.bin hop hlhs hrhs2) h
        · rw [if_neg hcmp] at h
          simp only [pure_eq_ok, ok_bind] at h
          exact ihB (.BinaryExpr op lhs rhs) p s2 r hp (OpsOk.bin hop hlhs hrhs) h

/-- The body of a successfully parsed definition satisfies the operator
invariant. -/
theorem parseDefinition_ops {fuel : Nat} {s : PState} {r : Function × PState}
    (h : parseDefinition fuel s = .ok r) : OpsOk r.1.body := by
  rw [parseDefinition] at h
  by_cases hd : s.tok = some Token.Def
  · rw [if_pos hd] at h
    rcases hg : getNextToken s with e | s1
    · simp [hg] at h
    simp only [hg, ok_bind] at h
    rcases hp : parsePrototype fuel s1 with e | ⟨proto, s2⟩
    · simp [hp] at h
    simp only [hp, ok_bind] at h
    rcases he : parseExpression fuel s2 with e | ⟨body, s3⟩
    · simp [he] at h
    simp only [he, ok_bind, pure_eq_ok] at h
    cases h
    exact (parseOps fuel).1 s2 (body, s3) he
  · rw [if_neg hd] at h
    exact Except.noConfusion h

/-- The top-level loop preserves the operator invariant for every unit
it accumulates. -/
theorem parseTop_ops : ∀ (fuel : Nat) (s : PState) (us : List TopUnit),
    parseTop fuel s = .ok us → ∀ u ∈ us, UnitOpsOk u := by
  intro fuel
  induction fuel with
  | zero =>
    intro s us h
    simp [parseTop] at h
  | succ f ih =>
    intro s us h
    simp only [parseTop] at h
    rcases hg : getNextToken s with e | s1
    · simp [hg] at h
    simp only [hg, ok_bind] at h
    rcases htok : s1.tok with _ | t
    · rw [htok] at h
      simp only [pure_eq_ok] at h
      cases h
      intro u hu
      simp at hu
    · rw [htok] at h
      simp only [ok_bind, error_bind, pure_eq_ok] at h
      by_cases hd : t = Token.Def
      · rw [if_pos hd] at h
        rcases hdef : parseDefinition f s1 with e | ⟨fn, s2⟩
        · simp [hdef] at h
        simp only [hdef, ok_bind] at h
        rcases hrest : parseTop f s2 with e | us2
        · simp [hrest] at h
        simp only [hrest, ok_bind, pure_eq_ok] at h
        cases h
        intro u hu
        rcases List.mem_cons.mp hu with h1 | h1
        · rw [h1]
          exact parseDefinition_ops hdef
        · exact ih s2 us2 hrest u h1
      · rw [if_neg hd] at h
        by_cases hx : t = Token.Ext
        · rw [if_pos hx] at h
          rcases hext : parseExt f s1 with e | ⟨pr, s2⟩
          · simp [hext] at h
          simp only [hext, ok_bind] at h
          rcases hrest : parseTop f s2 with e | us2
          · simp [hrest] at h
          simp only [hrest, ok_bind, pure_eq_ok] at h
          cases h
          intro u hu
          rcases List.mem_cons.mp hu with h1 | h1
          · rw [h1]
            exact trivial
          · exact ih s2 us2 hrest u h1
        · rw [if_neg hx] at h
          by_cases hs : t = Token.Symbol ';'
          · rw [if_pos hs] at h
            exact ih s1 us h
          · rw [if_neg hs] at h
            rcases hexp : parseExpression f s1 with e | ⟨ex, s2⟩
            · simp [hexp] at h
            simp only [hexp, ok_bind] at h
            rcases hrest : parseTop f s2 with e | us2
            · simp [hrest] at h
            simp only [hrest, ok_bind, pure_eq_ok] at h
            cases h
            intro u hu
            rcases List.mem_cons.mp hu with h1 | h1
            · rw [h1]
              exact (parseOps f).1 s1 (ex, s2) hexp
            · exact ih s2 us2 hrest u h1

/-- C9: for any input buffer and any fuel, every unit in a successful
parse satisfies the invariant that each `Binary` node's operator is a
key of the precedence table (`<`, `+`, `-`, `*`): the parser never
constructs a `Binary` node whose operator is outside the table. -/
theorem c9_binary_ops_in_table (fuel : Nat) (buf : List Char) (us : List TopUnit)
    (h : parse fuel buf = .ok us) : ∀ u ∈ us, UnitOpsOk u :=
  parseTop_ops fuel ⟨none, buf⟩ us h

/-- Witness for `c9_binary_ops_in_table` at the buffer `a+b`. -/
theorem c9_binary_ops_in_table_witness :
    UnitOpsOk (.exprU (.BinaryExpr '+' (.VariableExpr ['a']) (.VariableExpr ['b']))) :=
  c9_binary_ops_in_table 5 ['a', '+', 'b']
    [.exprU (.BinaryExpr '+' (.VariableExpr ['a']) (.VariableExpr ['b']))] rfl
    (.exprU (.BinaryExpr '+' (.VariableExpr ['a']) (.VariableExpr ['b']))) (by simp)

/-! ### C4: the top-level loop -/

/-- A buffer (from parser state `s`, lookahead not yet loaded) that is a
`;`-separated sequence of well-formed top-level units, with ASTs `us`:
either end-of-stream; or a bare `;` (producing no unit); or a unit —
a definition after `def`, an extern declaration after `extern`,
otherwise a standalone expression — whose parse succeeds and leaves as
lookahead either end-of-stream or a `;` (the one token the loop's next
`get_next_token` discards).  The `Nat` index is the fuel for the
fuel-indexed parser functions, one step per loop iteration. -/
inductive SepUnits : Nat → PState → List TopUnit → Prop where
  | eos {f : Nat} {s s1 : PState} : getNextToken s = .ok s1 → s1.tok = none →
      SepUnits (f + 1) s []
  | semi {f : Nat} {s s1 : PState} {us : List TopUnit} : getNextToken s = .ok s1 →
      s1.tok = some (.Symbol ';') → SepUnits f s1 us → SepUnits (f + 1) s us
  | defn {f : Nat} {s s1 s2 : PState} {fn : Function} {us : List TopUnit} :
      getNextToken s = .ok s1 → s1.tok = some .Def →
      parseDefinition f s1 = .ok (fn, s2) →
      (s2.tok = none ∨ s2.tok = some (.Symbol ';')) →
      SepUnits f s2 us → SepUnits (f + 1) s (.funcU fn :: us)
  | ext {f : Nat} {s s1 s2 : PState} {p : Prototype} {us : List TopUnit} :
      getNextToken s = .ok s1 → s1.tok = some .Ext →
      parseExt f s1 = .ok (p, s2) →
      (s2.tok = none ∨ s2.tok = some (.Symbol ';')) →
      SepUnits f s2 us → SepUnits (f + 1) s (.protoU p :: us)
  | expr {f : Nat} {s s1 s2 : PState} {t : Token} {e : Expr} {us : List TopUnit} :
      getNextToken s = .ok s1 → s1.tok = some t →
      t ≠ .Def → t ≠ .Ext → t ≠ .Symbol ';' →
      parseExpression f s1 = .ok (e, s2) →
      (s2.tok = none ∨ s2.tok = some (.Symbol ';')) →
      SepUnits f s2 us → SepUnits (f + 1) s (.exprU e :: us)

/-- C4 (amended): for every buffer that is a sequence of well-formed
top-level units in which each unit is immediately followed by
end-of-stream or a `;` token (which the loop's unconditional
`get_next_token` discards), possibly with extra bare `;` tokens,
`Parser::parse` stops at end-of-stream and the accumulated unit list
contains exactly the AST of each unit, one entry per unit, in source
order, with bare `;` tokens producing no unit. -/
theorem c4_top_level_units (fuel : Nat) (s : PState) (us : List TopUnit)
    (h : SepUnits fuel s us) : parseTop fuel s = .ok us := by
  induction h with
  | eos hg ht => simp [parseTop, hg, ht]
  | semi hg ht _ ih => simp [parseTop, hg, ht, ih]
  | defn hg ht hd _ _ ih => simp [parseTop, hg, ht, hd, ih]
  | ext hg ht hx _ _ ih => simp [parseTop, hg, ht, hx, ih]
  | expr hg ht h1 h2 h3 he _ _ ih => simp [parseTop, hg, ht, h1, h2, h3, he, ih]

/-- Witness for `c4_top_level_units` at the buffer `1;2`. -/
theorem c4_top_level_units_witness :
    parseTop 5 ⟨none, ['1', ';', '2']⟩ =
      .ok [.exprU (.NumberExpr ['1']), .exprU (.NumberExpr ['2'])] :=
  c4_top_level_units 5 ⟨none, ['1', ';', '2']⟩
    [.exprU (.NumberExpr ['1']), .exprU (.NumberExpr ['2'])]
    (SepUnits.expr rfl rfl (by decide) (by decide) (by decide) rfl (Or.inr rfl)
      (SepUnits.expr rfl rfl (by decide) (by decide) (by decide) rfl (Or.inl rfl)
        (SepUnits.eos rfl rfl)))

/-- Counterexample to C4 as stated: the buffer `a b` is a sequence of
two well-formed standalone-expression units (as the middle conjunct
shows, `b` alone parses to one unit) interleaved with zero `;` tokens,
yet `Parser::parse` yields only `[Variable("a")]` — the loop's
unconditional `get_next_token` discards the lookahead `Identifier("b")`
left after the first unit, so there is no entry for the second unit. -/
theorem c4_counterexample :
    parse 9 ['a', ' ', 'b'] = .ok [.exprU (.VariableExpr ['a'])] ∧
    parse 9 ['b'] = .ok [.exprU (.VariableExpr ['b'])] ∧
    parse 9 ['a', ' ', 'b'] ≠
      .ok [.exprU (.VariableExpr ['a']), .exprU (.VariableExpr ['b'])] := by
  refine ⟨rfl, rfl, ?_⟩
  intro h
  have h1 : parse 9 ['a', ' ', 'b'] = .ok [.exprU (.VariableExpr ['a'])] := rfl
  rw [h1] at h
  simp at h

end Kaleidoscope
